import Mathlib

/-!
Verification of the Hoyo-Hdiff-Patcher repository (`patch.py`).

Strings are modelled as `List Char` (name `Str`).  The filesystem is a pure
state (files with content and a writable bit, plus directories); external
collaborators (the `7z.exe` archiver, the `hpatchz.exe` binary-diff tool,
OS-level deletion failures, the stdlib JSON codec) are parameters bundled in
an `Ext` structure.  Paths follow the Windows conventions the program
targets: separator `\`, case-insensitive glob matching.
-/

namespace HdiffPatcher

abbrev Str := List Char

def str (s : String) : Str := s.data

/-! ### Python string primitives -/

/-- Whitespace characters stripped by Python `str.strip()` (ASCII subset). -/
def isSpaceChar (c : Char) : Bool :=
  c = ' ' || c = '\t' || c = '\n' || c = '\x0d' || c = '\x0b' || c = '\x0c'

/-- Python `str.strip()`: drop leading and trailing whitespace. -/
def pyStrip (s : Str) : Str :=
  ((s.dropWhile isSpaceChar).reverse.dropWhile isSpaceChar).reverse

/-- Helper for `pySplitlines`; `cur` is the current line accumulated in reverse. -/
def slAux (cur : Str) : Str → List Str
  | [] => if cur = [] then [] else [cur.reverse]
  | '\x0d' :: '\n' :: rest => cur.reverse :: slAux [] rest
  | '\n' :: rest => cur.reverse :: slAux [] rest
  | '\x0d' :: rest => cur.reverse :: slAux [] rest
  | c :: rest => slAux (c :: cur) rest

/-- Python `str.splitlines()` restricted to the `\n`, `\r`, `\r\n` terminators. -/
def pySplitlines (s : Str) : List Str := slAux [] s

/-- Python `str.split(sep)` for a single-character separator. -/
def splitOnChar (sep : Char) : Str → List Str
  | [] => [[]]
  | c :: rest =>
    if c = sep then [] :: splitOnChar sep rest
    else
      match splitOnChar sep rest with
      | [] => [[c]]
      | h :: t => (c :: h) :: t

/-- Fuel-indexed core of Python `str.replace`; fuel bounds the scan length. -/
def pyReplaceAux (pat rep : Str) : Nat → Str → Str
  | 0, s => s
  | Nat.succ n, s =>
    match s with
    | [] => []
    | c :: cs =>
      if pat ≠ [] ∧ pat.isPrefixOf (c :: cs) then
        rep ++ pyReplaceAux pat rep n ((c :: cs).drop pat.length)
      else
        c :: pyReplaceAux pat rep n cs

/-- Python `s.replace(pat, rep)`: replace every non-overlapping occurrence,
scanning left to right (callers never pass an empty `pat`). -/
def pyReplace (s pat rep : Str) : Str :=
  pyReplaceAux pat rep s.length s

/-- Value of a digit string, as Python `int` computes it for digits. -/
def digitsToNat (ds : Str) : Nat :=
  ds.foldl (fun acc c => acc * 10 + (c.toNat - 48)) 0

def allDigits (s : Str) : Bool := s.all Char.isDigit

/-- Python `int(s)` on a stripped string: optional sign followed by one or
more digits, `none` models the `ValueError` raised otherwise. -/
def pyIntOpt (s : Str) : Option Int :=
  match s with
  | [] => none
  | c :: rest =>
    if c = '-' then
      if rest ≠ [] ∧ allDigits rest then some (-(Int.ofNat (digitsToNat rest))) else none
    else if c = '+' then
      if rest ≠ [] ∧ allDigits rest then some (Int.ofNat (digitsToNat rest)) else none
    else if allDigits (c :: rest) then some (Int.ofNat (digitsToNat (c :: rest)))
    else none

/-- Lexicographic `<` on strings, as Python compares `str` values. -/
def strLt : Str → Str → Bool
  | [], [] => false
  | [], _ :: _ => true
  | _ :: _, [] => false
  | a :: as, b :: bs => a < b || (a = b && strLt as bs)

def strLe (a b : Str) : Bool := !(strLt b a)

def lowerStr (s : Str) : Str := s.map Char.toLower

/-! ### Version parsing (`normalize_version`, `parse_from_to_versions_from_name`) -/

/-- `normalize_version` from the source: split on `.`; a two-component
version gets `.0` appended, anything else is returned unchanged. -/
def normalize_version (v : Str) : Str :=
  match splitOnChar '.' v with
  | [p0, p1] => p0 ++ '.' :: (p1 ++ str ".0")
  | _ => v

/-- `\d+` with maximal munch: the digit run and the remainder, or `none`
when the next character is not a digit. -/
def takeDigits1 (s : Str) : Option (Str × Str) :=
  let d := s.takeWhile Char.isDigit
  if d = [] then none else some (d, s.dropWhile Char.isDigit)

/-- Matches `\d+\.\d+` at the head of `s`, returning the matched text and
the remainder. -/
def matchNum2 (s : Str) : Option (Str × Str) :=
  match takeDigits1 s with
  | none => none
  | some (d1, r1) =>
    match r1 with
    | '.' :: r2 =>
      match takeDigits1 r2 with
      | none => none
      | some (d2, r3) => some (d1 ++ '.' :: d2, r3)
    | _ => none

/-- Matches the optional `(?:\.\d+)?` extension at the head of `s`. -/
def extOpt (s : Str) : Option (Str × Str) :=
  match s with
  | '.' :: r =>
    match takeDigits1 r with
    | none => none
    | some (d, r2) => some ('.' :: d, r2)
  | _ => none

/-- Matches `\d+\.\d+(?:\.\d+)?` at the head of `s`, greedily (the pattern
tail after the second group is empty, so greedy wins outright). -/
def matchVer (s : Str) : Option (Str × Str) :=
  match matchNum2 s with
  | none => none
  | some (m, r) =>
    match extOpt r with
    | some (e, r2) => some (m ++ e, r2)
    | none => some (m, r)

/-- Continuation after the first version group: `_` then the second group. -/
def tryTail (v1 : Str) (r : Str) : Option (Str × Str) :=
  match r with
  | '_' :: r2 =>
    match matchVer r2 with
    | none => none
    | some (v2, _) => some (v1, v2)
  | _ => none

/-- Attempts `_(\d+\.\d+(?:\.\d+)?)_(\d+\.\d+(?:\.\d+)?)` at the head of
`s`, with regex backtracking over the first group's optional extension. -/
def tryFromTo (s : Str) : Option (Str × Str) :=
  match s with
  | '_' :: rest =>
    match matchNum2 rest with
    | none => none
    | some (m1, r1) =>
      match extOpt r1 with
      | some (e, r2) =>
        match tryTail (m1 ++ e) r2 with
        | some res => some res
        | none => tryTail m1 r1
      | none => tryTail m1 r1
  | _ => none

/-- `re.search` for the from/to pattern: leftmost match position wins. -/
def verPairSearch : Str → Option (Str × Str)
  | [] => none
  | c :: rest =>
    match tryFromTo (c :: rest) with
    | some res => some res
    | none => verPairSearch rest

/-- `parse_from_to_versions_from_name` from the source: regex search for
`_(\d+\.\d+(?:\.\d+)?)_(\d+\.\d+(?:\.\d+)?)`, both groups normalized;
the Python `(None, None)` result is modelled as `none`. -/
def parse_from_to_versions_from_name (name : Str) : Option (Str × Str) :=
  match verPairSearch name with
  | some (a, b) => some (normalize_version a, normalize_version b)
  | none => none

/-- Python tuple `<` on int pairs (lexicographic). -/
def pairLt (p q : Int × Int) : Bool :=
  p.1 < q.1 || (p.1 = q.1 && p.2 < q.2)

/-- `fmaj, fmin = map(int, v.split(".")[:2])` from `process_logical_archive`:
`none` models the `ValueError` caught by the surrounding `except`. -/
def majMinOfVersion (v : Str) : Option (Int × Int) :=
  match (splitOnChar '.' v).take 2 with
  | [a, b] =>
    match pyIntOpt a, pyIntOpt b with
    | some x, some y => some (x, y)
    | _, _ => none
  | _ => none

/-- The migration decision of `process_logical_archive`: both versions must
parse, and `(fmaj, fmin) < (3, 6) <= (tmaj, tmin)` lexicographically; any
failure (no regex match, int conversion error) yields `false`. -/
def migrationDecision (name : Str) : Bool :=
  match parse_from_to_versions_from_name name with
  | some (fv, tv) =>
    match majMinOfVersion fv, majMinOfVersion tv with
    | some f, some t => pairLt f (3, 6) && !(pairLt t (3, 6))
    | _, _ => false
  | none => false

/-- Spec-side total reading of a version's major/minor pair: the numeric
values of the first two dot-separated components. -/
def vMajMin (v : Str) : Int × Int :=
  match splitOnChar '.' v with
  | a :: b :: _ => (Int.ofNat (digitsToNat a), Int.ofNat (digitsToNat b))
  | _ => (0, 0)

/-! ### Filesystem state

Paths are strings relative to the working directory, `\`-separated (the
Windows platform the tool targets).  `Path("")` in Python denotes `"."`,
the working directory, which always exists and is a directory. -/

instance exceptDecEq {ε α : Type} [DecidableEq ε] [DecidableEq α] : DecidableEq (Except ε α) :=
  fun x y =>
    match x, y with
    | .error a, .error b =>
      if h : a = b then isTrue (congrArg Except.error h)
      else isFalse (fun hh => h (Except.error.inj hh))
    | .ok a, .ok b =>
      if h : a = b then isTrue (congrArg Except.ok h)
      else isFalse (fun hh => h (Except.ok.inj hh))
    | .error _, .ok _ => isFalse (fun hh => Except.noConfusion hh)
    | .ok _, .error _ => isFalse (fun hh => Except.noConfusion hh)

structure FSFile where
  path : Str
  content : Str
  writable : Bool
deriving DecidableEq

structure FS where
  files : List FSFile
  dirs : List Str
deriving DecidableEq

def pathOf (s : Str) : Str := if s = [] then ['.'] else s

/-- `p` lies strictly inside directory `d` (every path is inside `"."`). -/
def strictUnderB (d p : Str) : Bool :=
  if d = ['.'] then decide (p ≠ ['.']) else (d ++ ['\\']).isPrefixOf p

def isFileFS (st : FS) (p : Str) : Bool :=
  st.files.any (fun f => decide (f.path = p))

def isDirFS (st : FS) (p : Str) : Bool :=
  decide (p = ['.']) || st.dirs.any (fun d => decide (d = p))

def existsFS (st : FS) (p : Str) : Bool := isFileFS st p || isDirFS st p

/-- Content of file `p`, or `[]` when absent. -/
def readD (st : FS) (p : Str) : Str :=
  match st.files.find? (fun f => decide (f.path = p)) with
  | some f => f.content
  | none => []

/-- `Path.unlink()` on a file; on a directory (or a missing path) the raised
error is caught by every caller, so the model is a no-op there. -/
def unlinkFS (p : Str) (st : FS) : FS :=
  { st with files := st.files.filter (fun f => decide (f.path ≠ p)) }

/-- `shutil.rmtree(d, ignore_errors=True)`: drop `d` and everything inside. -/
def rmtreeFS (d : Str) (st : FS) : FS :=
  { files := st.files.filter (fun f => !strictUnderB d f.path),
    dirs := st.dirs.filter (fun x => decide (x ≠ d) && !strictUnderB d x) }

/-- `write_text`: replace the content of `p`, creating the file if absent. -/
def writeFS (p : Str) (c : Str) (st : FS) : FS :=
  if isFileFS st p then
    { st with files := st.files.map (fun f => if f.path = p then { f with content := c } else f) }
  else
    { st with files := { path := p, content := c, writable := true } :: st.files }

/-- `ensure_writable`: clear the read-only attribute of a single path. -/
def ensureWritableFS (p : Str) (st : FS) : FS :=
  { st with files := st.files.map (fun f => if f.path = p then { f with writable := true } else f) }

/-- `make_writable_recursive`: a file gets its bit set; a directory has the
bit set on everything below it. -/
def makeWritableRec (p : Str) (st : FS) : FS :=
  if isFileFS st p then ensureWritableFS p st
  else if isDirFS st p then
    { st with files :=
        st.files.map (fun f => if strictUnderB p f.path then { f with writable := true } else f) }
  else st

/-- `mkdir(parents=True, exist_ok=True)` (parent chain elided: no claim
inspects intermediate directories). -/
def mkdirFS (d : Str) (st : FS) : FS :=
  if isDirFS st d then st else { st with dirs := d :: st.dirs }

def hasSep (p : Str) : Bool := p.any (fun c => decide (c = '\\'))

/-- Working-directory file names (`Path.cwd().iterdir()` restricted to files). -/
def cwdFileNames (st : FS) : List Str :=
  (st.files.map FSFile.path).filter (fun p => !hasSep p)

/-- All working-directory entries, files and directories (`glob` sees both). -/
def cwdEntryNames (st : FS) : List Str :=
  cwdFileNames st ++ st.dirs.filter (fun p => !hasSep p)

/-- External collaborators: the archiver, the binary-diff tool, OS deletion
failures, and the stdlib JSON codec. -/
structure Ext where
  /-- `7z.exe x <archive> -o. -y`: arbitrary effect on the tree (failure is
  caught and logged by every caller, so only the resulting state matters). -/
  extract : Str → FS → FS
  /-- `hpatchz.exe -f <old> <diff> <old>` on the given old/diff contents:
  `some` is the patched content, `none` a non-zero exit. -/
  hpatch : Str → Str → Option Str
  /-- Whether `Path.unlink()` raises an `OSError` for this delete-manifest
  target (caught and logged per entry). -/
  delFail : Str → Bool
  /-- `json.loads` + `.get("variance")` composed with the version regex
  feed: `none` models a decode failure or an unmatched field. -/
  jsonVariance : Str → Option Str

/-! ### Manifest normalization and processing -/

/-- The content rewrite of `replace_text_in_file`: drop every occurrence of
the wrapper pieces `{"remoteName": "` and `"}`, then turn each `/` into a
(hard-coded) backslash. -/
def replace_text (t : Str) : Str :=
  pyReplace (pyReplace (pyReplace t (str "\x7b\"remoteName\": \"") []) (str "\"\x7d") []) (str "/") (str "\\")

def replace_text_in_file (p : Str) (st : FS) : FS :=
  if isFileFS st p then writeFS p (replace_text (readD st p)) st else st

/-- One entry of the delete manifest: skip a missing target, clear read-only
bits, unlink a file (an `OSError` is caught: the entry is logged and left),
`rmtree` a directory. -/
def deleteEntry (E : Ext) (st : FS) (line : Str) : FS :=
  let target := pathOf (pyStrip line)
  if existsFS st target = false then st
  else
    let st1 := makeWritableRec target st
    if isFileFS st1 target then
      if E.delFail target then st1 else unlinkFS target st1
    else if isDirFS st1 target then rmtreeFS target st1
    else st1

def deleteLoop (E : Ext) : FS → List Str → FS
  | st, [] => st
  | st, l :: rest => deleteLoop E (deleteEntry E st l) rest

/-- `delete_files`: normalize `deletefiles.txt`, process each line, then
best-effort unlink the manifest itself. -/
def delete_files (E : Ext) (st : FS) : FS :=
  if isFileFS st (str "deletefiles.txt") = false then st
  else
    let st1 := replace_text_in_file (str "deletefiles.txt") st
    let lines := pySplitlines (readD st1 (str "deletefiles.txt"))
    unlinkFS (str "deletefiles.txt") (deleteLoop E st1 lines)

/-- The per-entry loop of `apply_hdiff`.  A failing `hpatchz.exe` run is
logged and re-raised: `.error` carries the state at the raise. -/
def hdiffLoop (E : Ext) : FS → List Str → Bool → Except FS (FS × Bool)
  | st, [], patched => .ok (st, patched)
  | st, line :: rest, patched =>
    let target := pyStrip line
    if target = [] then hdiffLoop E st rest patched
    else
      if isFileFS st (target ++ str ".hdiff") = false then hdiffLoop E st rest patched
      else
        let st1 := ensureWritableFS target st
        match E.hpatch (readD st1 target) (readD st1 (target ++ str ".hdiff")) with
        | none => .error st1
        | some nc =>
          hdiffLoop E (unlinkFS (target ++ str ".hdiff") (writeFS target nc st1)) rest true

/-- `apply_hdiff`: normalize `hdifffiles.txt`, patch each listed target, then
unlink the manifest; a tool failure propagates and the manifest survives. -/
def apply_hdiff (E : Ext) (st : FS) : Except FS (FS × Bool) :=
  if isFileFS st (str "hdifffiles.txt") = false then .ok (st, false)
  else
    let st1 := replace_text_in_file (str "hdifffiles.txt") st
    match hdiffLoop E st1 (pySplitlines (readD st1 (str "hdifffiles.txt"))) false with
    | .error s => .error s
    | .ok (st2, patched) => .ok (unlinkFS (str "hdifffiles.txt") st2, patched)

/-! ### Sorting by filename (Python `sorted` on strings) -/

def strLeP (a b : Str) : Prop := strLe a b = true

def strGeP (a b : Str) : Prop := strLe b a = true

instance : DecidableRel strLeP := fun a b => inferInstanceAs (Decidable (strLe a b = true))

instance : DecidableRel strGeP := fun a b => inferInstanceAs (Decidable (strLe b a = true))

def sortStr (l : List Str) : List Str := List.insertionSort strLeP l

/-- `sorted(..., reverse=True)`. -/
def sortStrRev (l : List Str) : List Str := List.insertionSort strGeP l

/-! ### Archive classification (`is_multipart_first`, `is_part_file_name`) -/

/-- After the trailing digit run (reversed), the name must continue with
`.` + a reversed archive extension + `.` — i.e. the original ends in
`.<ext>.<digits>`. -/
def restExtDot (r : Str) : Bool :=
  (str ".piz.").isPrefixOf r || (str ".z7.").isPrefixOf r || (str ".rar.").isPrefixOf r

/-- The regex `\.(7z|zip|rar)\.0*\d+$` on the lowercased name (`0*\d+` is
just `\d+`). -/
def matchesExtNum (name : Str) : Bool :=
  let r := (lowerStr name).reverse
  decide (r.takeWhile Char.isDigit ≠ []) && restExtDot (r.dropWhile Char.isDigit)

/-- The regex `\.(7z|zip|rar)\.0*1$` on the lowercased name. -/
def matchesExtZeros1 (name : Str) : Bool :=
  match (lowerStr name).reverse with
  | '1' :: r1 => restExtDot (r1.dropWhile (fun c => decide (c = '0')))
  | _ => false

/-- The regex `\.part\d+\.rar$` on the lowercased name. -/
def matchesPartNRar (name : Str) : Bool :=
  match (lowerStr name).reverse with
  | 'r' :: 'a' :: 'r' :: '.' :: r1 =>
    decide (r1.takeWhile Char.isDigit ≠ []) && (str "trap.").isPrefixOf (r1.dropWhile Char.isDigit)
  | _ => false

/-- `is_multipart_first` from the source. -/
def is_multipart_first (p : Str) : Bool :=
  matchesExtZeros1 p || (str ".part1.rar").isSuffixOf (lowerStr p)

/-- `is_part_file_name` from the source (first parts, then any numbered
part, then `.partN.rar`). -/
def is_part_file_name (name : Str) : Bool :=
  matchesExtZeros1 name || (str ".part1.rar").isSuffixOf (lowerStr name) ||
    matchesExtNum name || matchesPartNRar name

/-- The group-1 capture of `^(.*\.(?:7z|zip|rar))\.0*1$` applied to the
lowercased name: the logical stem of a `name.ext.0*1` first part. -/
def stemOfExtFirst (name : Str) : Option Str :=
  match (lowerStr name).reverse with
  | '1' :: r1 =>
    let r2 := r1.dropWhile (fun c => decide (c = '0'))
    if restExtDot r2 then some (r2.drop 1).reverse else none
  | _ => none

/-- `get_multipart_first_parts`: working-directory files classified as first
parts, sorted by name. -/
def get_multipart_first_parts (st : FS) : List Str :=
  sortStr ((cwdFileNames st).filter is_multipart_first)

/-- Windows-glob `stem.*` (case-insensitive, `*` may be empty). -/
def globStemDot (stem : Str) (f : Str) : Bool :=
  (lowerStr stem ++ ['.']).isPrefixOf (lowerStr f)

/-- Windows-glob `stem.part*.rar`. -/
def globStemPartRar (stem : Str) (f : Str) : Bool :=
  let lf := lowerStr f
  let pre := lowerStr stem ++ str ".part"
  pre.isPrefixOf lf && (str ".rar").isSuffixOf (lf.drop pre.length)

/-- `collect_parts_for_first`: sibling parts of a first-part file, gathered
by a glob over the working directory and sorted by name. -/
def collect_parts_for_first (st : FS) (first : Str) : List Str :=
  match stemOfExtFirst first with
  | some stem => sortStr ((cwdEntryNames st).filter (globStemDot stem))
  | none =>
    if (str ".part1.rar").isSuffixOf (lowerStr first) then
      sortStr ((cwdEntryNames st).filter
        (globStemPartRar (first.take (first.length - (str ".part1.rar").length))))
    else [first]

/-- The sibling-glob test a working-directory entry must pass to join the
logical archive of `first` (the glob patterns of `collect_parts_for_first`,
branch by branch). -/
def siblingGlob (first f : Str) : Bool :=
  match stemOfExtFirst first with
  | some stem => globStemDot stem f
  | none =>
    if (str ".part1.rar").isSuffixOf (lowerStr first) then
      globStemPartRar (first.take (first.length - (str ".part1.rar").length)) f
    else decide (f = first)

/-- `logical_name_from_first` (the `.part1.rar` and fallback branches both
return the filename itself). -/
def logical_name_from_first (first : Str) : Str :=
  match stemOfExtFirst first with
  | some stem => stem
  | none => first

/-! ### Migration (`migrate_audio_if_needed`) -/

def pjoin (a b : Str) : Str := a ++ '\\' :: b

/-- `migrate_audio_if_needed`: gated on the destination version's
major/minor reaching (3, 6); relocates the old audio tree into
`StreamingAssets\AudioAssets` and removes the old tree.  Move failures fall
back to copies; the model keeps the successful-rename result. -/
def migrate_audio_if_needed (gf : Str) (vto : Option Str) (st : FS) : FS × Bool :=
  match vto with
  | none => (st, false)
  | some v =>
    match splitOnChar '.' v with
    | [a, b, c] =>
      match pyIntOpt a, pyIntOpt b, pyIntOpt c with
      | some maj, some mnr, some _ =>
        if pairLt (maj, mnr) (3, 6) then (st, false)
        else
          let old := pjoin gf (str "StreamingAssets\\Audio\\GeneratedSoundBanks\\Windows")
          let nw := pjoin gf (str "StreamingAssets\\AudioAssets")
          if existsFS st old = false then (st, false)
          else
            let st1 := mkdirFS nw st
            let moved : FS :=
              { files := st1.files.map (fun f =>
                  if strictUnderB old f.path then { f with path := nw ++ f.path.drop old.length } else f),
                dirs := st1.dirs ++ (st1.dirs.filter (strictUnderB old)).map
                  (fun d => nw ++ d.drop old.length) }
            (rmtreeFS old moved, true)
      | _, _, _ => (st, false)
    | _ => (st, false)

/-! ### Per-archive processing (`process_logical_archive`) -/

/-- `process_logical_archive`: decide migration from the archive name, run
the migration or the delete manifest, then the diff manifest; the returned
flag is `apply_hdiff`'s (a raised diff failure propagates). -/
def process_logical_archive (E : Ext) (gf : Str) (name : Str) (st : FS) : Except FS (FS × Bool) :=
  let st1 :=
    if migrationDecision name then
      (migrate_audio_if_needed gf ((parse_from_to_versions_from_name name).map Prod.snd) st).1
    else delete_files E st
  apply_hdiff E st1

/-! ### Multipart driving -/

def unlinkList (ps : List Str) (st : FS) : FS :=
  ps.foldl (fun s p => unlinkFS p s) st

/-- The state reached inside `extract_multipart_and_process` right after the
part-deletion loop: extract (success or not), glob the siblings, unlink each. -/
def afterPartsDeleted (E : Ext) (first : Str) (st : FS) : FS :=
  let st1 := E.extract first st
  unlinkList (collect_parts_for_first st1 first) st1

def extract_multipart_and_process (E : Ext) (gf : Str) (first : Str) (st : FS) :
    Except FS (FS × Bool) :=
  process_logical_archive E gf (logical_name_from_first first) (afterPartsDeleted E first st)

/-- The loop of `extract_all_multipart_and_process`: any exception from one
logical archive is caught and logged, and the next first part is processed. -/
def extractAllLoop (E : Ext) (gf : Str) : FS → List Str → Bool → FS × Bool
  | st, [], acc => (st, acc)
  | st, f :: rest, acc =>
    match extract_multipart_and_process E gf f st with
    | .ok (st', b) => extractAllLoop E gf st' rest (acc || b)
    | .error st' => extractAllLoop E gf st' rest acc

def extract_all_multipart_and_process (E : Ext) (gf : Str) (st : FS) : FS × Bool :=
  extractAllLoop E gf st (get_multipart_first_parts st) false

/-! ### Single archives and the top-level driver -/

/-- `extract_single_archive`: extraction failure is caught; the archive file
is then unlinked best-effort. -/
def extract_single_archive (E : Ext) (name : Str) (st : FS) : FS :=
  unlinkFS name (E.extract name st)

def notHidden (e : Str) : Bool :=
  match e with
  | '.' :: _ => false
  | _ => true

/-- `sorted(glob("*.zip") + glob("*.7z") + glob("*.rar"))` (Windows glob:
case-insensitive, dot-files hidden from a leading `*`). -/
def mainCandidates (st : FS) : List Str :=
  sortStr ((cwdEntryNames st).filter (fun e =>
    notHidden e &&
      ((str ".zip").isSuffixOf (lowerStr e) || (str ".7z").isSuffixOf (lowerStr e) ||
        (str ".rar").isSuffixOf (lowerStr e))))

/-- The candidate list after dropping every `is_part_file_name` match. -/
def mainFiltered (st : FS) : List Str :=
  (mainCandidates st).filter (fun n => !is_part_file_name n)

/-- The single-archive loop of `main`; `process_logical_archive` is not
wrapped in a `try` here, so a diff failure propagates out of `main`. -/
def singlesLoop (E : Ext) (gf : Str) : FS → List Str → Bool → Except FS (FS × Bool)
  | st, [], acc => .ok (st, acc)
  | st, n :: rest, acc =>
    let st1 := extract_single_archive E n st
    match process_logical_archive E gf n st1 with
    | .error s => .error s
    | .ok (st2, b) => singlesLoop E gf st2 rest (acc || b)

/-! ### Version detection and cleanup -/

/-- `re.search(r"(\d+\.\d+(?:\.\d+)?)", s)`: leftmost match. -/
def searchVerStr : Str → Option Str
  | [] => none
  | c :: rest =>
    match matchVer (c :: rest) with
    | some (m, _) => some m
    | none => searchVerStr rest

/-- `detect_game_version_after_patch`: settings JSON, then the binary
marker, then the plain-text marker; first version-shaped hit wins. -/
def detect_game_version_after_patch (E : Ext) (gf : Str) (st : FS) : Option Str :=
  let sj := pjoin gf (str "StreamingAssets\\asb_settings.json")
  let fromJson : Option Str :=
    if existsFS st sj then
      match E.jsonVariance (readD st sj) with
      | some variance => (searchVerStr variance).map normalize_version
      | none => none
    else none
  match fromJson with
  | some v => some v
  | none =>
    let bv := pjoin gf (str "StreamingAssets\\BinaryVersion.bytes")
    match (if existsFS st bv then (searchVerStr (readD st bv)).map normalize_version else none) with
    | some v => some v
    | none =>
      let vi := pjoin gf (str "version_info")
      if existsFS st vi then (searchVerStr (readD st vi)).map normalize_version else none

def configContent (v : Str) : Str :=
  str "[General]\nchannel=1\ncps=hoyoverse\ngame_version=" ++ v ++ str "\nsub_channel=0\n"

/-- `write_config_ini`: written only when a version was detected. -/
def write_config_ini (v : Option Str) (st : FS) : FS :=
  match v with
  | none => st
  | some ver => writeFS (str "config.ini") (configContent ver) st

/-- Final path component (what `rglob` patterns are matched against). -/
def baseName (p : Str) : Str :=
  (p.reverse.takeWhile (fun c => decide (c ≠ '\\'))).reverse

def isSubStr (pat s : Str) : Bool := decide (List.IsInfix pat s)

/-- `b` matches `*.part*.rar`. -/
def matchesPartStarRar (b : Str) : Bool :=
  (str ".rar").isSuffixOf b && isSubStr (str ".part") (b.take (b.length - 4))

/-- The union of the transient-artifact patterns of `cleanup_aux_files`
(duplicates such as `*.zip.001` are subsumed by `*.zip.*`). -/
def matchesAuxPattern (name : Str) : Bool :=
  let b := lowerStr name
  (str ".py").isSuffixOf b || (str ".bat").isSuffixOf b ||
    (str ".zip").isSuffixOf b || isSubStr (str ".zip.") b ||
    (str ".rar").isSuffixOf b || isSubStr (str ".rar.") b || matchesPartStarRar b ||
    (str ".7z").isSuffixOf b || isSubStr (str ".7z.") b ||
    decide (b = str "hpatchz.exe") || decide (b = str "hdiffz.exe") ||
    decide (b = str "7z.exe") || decide (b = str "version.dll") ||
    (str ".dmp").isSuffixOf b || (str ".bak").isSuffixOf b ||
    (str ".txt").isSuffixOf b || (str ".log").isSuffixOf b

def isCacheDirName (name : Str) : Bool :=
  let b := lowerStr name
  decide (b = str "sdkcaches") || decide (b = str "webcaches") ||
    decide (b = str "kr_game_cache") || decide (b = str "launcherdownload") ||
    decide (b = str ".quality") || decide (b = str "quality") ||
    decide (b = str "crashsightlog") || decide (b = str "pipe_client") ||
    decide (b = str "tqm64") || decide (b = str "wesight")

/-- `cleanup_aux_files`: unlink every file matching a transient pattern
(directories that match survive the failed `unlink`), then `rmtree` the
named cache directories found under the game folder. -/
def cleanup_aux_files (gf : Str) (st : FS) : FS :=
  let st1 : FS := { st with files := st.files.filter (fun f => !matchesAuxPattern (baseName f.path)) }
  (st1.dirs.filter (fun d => strictUnderB gf d && isCacheDirName (baseName d))).foldl
    (fun s d => rmtreeFS d s) st1

/-- A directory with no file and no directory inside it (`rmdir` succeeds). -/
def dirIsEmpty (st : FS) (d : Str) : Bool :=
  st.files.all (fun f => !strictUnderB d f.path) && st.dirs.all (fun x => !strictUnderB d x)

def rmdirTry (st : FS) (d : Str) : FS :=
  if dirIsEmpty st d then { st with dirs := st.dirs.filter (fun x => decide (x ≠ d)) } else st

/-- One pass of `cleanup_empty_dirs`: the reverse-sorted snapshot of the
directories under the game folder, each `rmdir`ed if empty at its turn. -/
def emptyDirPass (gf : Str) (st : FS) : FS :=
  (sortStrRev (st.dirs.filter (strictUnderB gf))).foldl rmdirTry st

/-- `cleanup_empty_dirs`: repeat passes until one removes nothing. -/
def cleanup_empty_dirs (gf : Str) (st : FS) : FS :=
  let st' := emptyDirPass gf st
  if st'.dirs.length < st.dirs.length then cleanup_empty_dirs gf st'
  else st'
termination_by st.dirs.length
decreasing_by assumption

/-! ### `main` -/

def GAME_FOLDERS : List Str :=
  [str "GenshinImpact_Data", str "StarRail_Data", str "ZenlessZoneZero_Data", str "Client"]

/-- `detect_game_folder`: the first supported folder name that is a
directory (`none` models the `sys.exit(1)`). -/
def detect_game_folder (st : FS) : Option Str :=
  GAME_FOLDERS.find? (fun g => isDirFS st g)

/-- `check_tools`: both tool binaries must be present. -/
def check_tools (st : FS) : Bool :=
  existsFS st (str "7z.exe") && existsFS st (str "hpatchz.exe")

inductive MainOut where
  /-- `sys.exit(1)` before any mutation (missing game folder or tool). -/
  | exit : MainOut
  /-- An exception escaped the single-archive loop. -/
  | raised : FS → MainOut
  /-- The terminal "Patching finished." log line was reached. -/
  | finished : FS → Bool → MainOut
deriving DecidableEq

/-- `main`: setup checks, multipart pass, single-archive pass, then (when a
patch was applied) version detection, config write and aux cleanup, and
always the empty-directory cleanup before the finished message
(`pending_delete_for_migration` is constant `False` in the source and its
branch is dead). -/
def mainRun (E : Ext) (st : FS) : MainOut :=
  match detect_game_folder st with
  | none => .exit
  | some gf =>
    if check_tools st = false then .exit
    else
      let ep := extract_all_multipart_and_process E gf st
      match singlesLoop E gf ep.1 (mainFiltered ep.1) false with
      | .error s => .raised s
      | .ok (st2, p2) =>
        let patchDone := ep.2 || p2
        let st3 :=
          if patchDone then
            cleanup_aux_files gf
              (write_config_ini (detect_game_version_after_patch E gf st2) st2)
          else st2
        .finished (cleanup_empty_dirs gf st3) patchDone

/-! ### Spec-side definition for the normalization refinement claim -/

/-- Follows the spec's words: manifest normalization strips the JSON
wrapper pieces and rewrites every forward slash to the platform path
separator `sep` of the host system. -/
def replace_text_spec (sep : Char) (t : Str) : Str :=
  pyReplace (pyReplace (pyReplace t (str "\x7b\"remoteName\": \"") []) (str "\"\x7d") []) (str "/") [sep]

/-- Shape of a raw regex match for `\d+\.\d+(?:\.\d+)?`. -/
def VerShape (m : Str) : Prop :=
  (∃ d1 d2, d1 ≠ [] ∧ d2 ≠ [] ∧ allDigits d1 = true ∧ allDigits d2 = true ∧
    m = d1 ++ '.' :: d2) ∨
  (∃ d1 d2 d3, d1 ≠ [] ∧ d2 ≠ [] ∧ d3 ≠ [] ∧ allDigits d1 = true ∧ allDigits d2 = true ∧
    allDigits d3 = true ∧ m = d1 ++ '.' :: (d2 ++ '.' :: d3))

/-! ### Fixtures used by witnesses -/

/-- Externals that leave the tree alone and whose diff tool always fails. -/
def extIdNone : Ext :=
  { extract := fun _ st => st, hpatch := fun _ _ => none,
    delFail := fun _ => false, jsonVariance := fun _ => none }

/-- Externals whose diff tool always succeeds, appending the diff content. -/
def extIdConcat : Ext :=
  { extract := fun _ st => st, hpatch := fun o d => some (o ++ d),
    delFail := fun _ => false, jsonVariance := fun _ => none }

def mkFile (p c : String) : FSFile := { path := str p, content := str c, writable := true }

/-- The spec's multipart scenario: three sibling parts and one unrelated
archive, in a tree with a game folder. -/
def multipartFS : FS :=
  { files := [mkFile "update.zip.001" "x", mkFile "update.zip.002" "y",
      mkFile "update.zip.003" "z", mkFile "other.zip" "w"],
    dirs := [str "GenshinImpact_Data"] }

/-- A diff-manifest scenario: one target with a diff artifact, one without. -/
def hdiffFS : FS :=
  { files := [mkFile "hdifffiles.txt" "data.bin\nno.bin", mkFile "data.bin" "OLD",
      mkFile "data.bin.hdiff" "D"],
    dirs := [] }

/-- A delete-manifest scenario: one existing target, one missing target. -/
def deleteFS : FS :=
  { files := [mkFile "deletefiles.txt" "a.txt\nmissing.txt", mkFile "a.txt" "q"], dirs := [] }

/-- An already-patched tree: tools present, no manifests, no archives, one
empty directory left under the game folder. -/
def idleFS : FS :=
  { files := [mkFile "7z.exe" "t", mkFile "hpatchz.exe" "t"],
    dirs := [str "GenshinImpact_Data", pjoin (str "GenshinImpact_Data") (str "Empty")] }

/-- A delete manifest consisting of a single empty line. -/
def wipeFS : FS :=
  { files := [mkFile "deletefiles.txt" "\n", mkFile "a.txt" "q"],
    dirs := [str "GenshinImpact_Data"] }

/-! ## Theorems -/

theorem digit_ne_dot {a : Char} (h : a.isDigit = true) : a ≠ '.' := by
  intro he; subst he; exact absurd h (by decide)

theorem digit_ne_dash {a : Char} (h : a.isDigit = true) : a ≠ '-' := by
  intro he; subst he; exact absurd h (by decide)

theorem digit_ne_plus {a : Char} (h : a.isDigit = true) : a ≠ '+' := by
  intro he; subst he; exact absurd h (by decide)

theorem allDigits_no_dot {s : Str} (h : allDigits s = true) :
    ∀ a ∈ s, a ≠ '.' := by
  intro a ha
  exact digit_ne_dot (by simpa using (List.all_eq_true.mp h a ha))

theorem splitOnChar_append (c : Char) (xs ys : Str) (h : ∀ a ∈ xs, a ≠ c) :
    splitOnChar c (xs ++ c :: ys) = xs :: splitOnChar c ys := by
  induction xs with
  | nil => simp [splitOnChar]
  | cons a t ih =>
    have ha : a ≠ c := h a (by simp)
    have ih' := ih (fun b hb => h b (by simp [hb]))
    simp only [List.cons_append, splitOnChar, if_neg ha, List.append_eq]
    rw [ih']

theorem splitOnChar_eq_self (c : Char) (xs : Str) (h : ∀ a ∈ xs, a ≠ c) :
    splitOnChar c xs = [xs] := by
  induction xs with
  | nil => simp [splitOnChar]
  | cons a t ih =>
    have ha : a ≠ c := h a (by simp)
    have ih' := ih (fun b hb => h b (by simp [hb]))
    simp only [splitOnChar, if_neg ha, ih']

theorem split_two (d1 d2 : Str) (h1 : allDigits d1 = true) (h2 : allDigits d2 = true) :
    splitOnChar '.' (d1 ++ '.' :: d2) = [d1, d2] := by
  rw [splitOnChar_append '.' d1 d2 (allDigits_no_dot h1),
    splitOnChar_eq_self '.' d2 (allDigits_no_dot h2)]

theorem split_three (d1 d2 d3 : Str) (h1 : allDigits d1 = true) (h2 : allDigits d2 = true)
    (h3 : allDigits d3 = true) :
    splitOnChar '.' (d1 ++ '.' :: (d2 ++ '.' :: d3)) = [d1, d2, d3] := by
  rw [splitOnChar_append '.' d1 _ (allDigits_no_dot h1),
    splitOnChar_append '.' d2 d3 (allDigits_no_dot h2),
    splitOnChar_eq_self '.' d3 (allDigits_no_dot h3)]

theorem pyIntOpt_digits {s : Str} (hne : s ≠ []) (hd : allDigits s = true) :
    pyIntOpt s = some (Int.ofNat (digitsToNat s)) := by
  match s, hne with
  | c :: rest, _ =>
    have hc : c.isDigit = true := by simpa using (List.all_eq_true.mp hd c (by simp))
    simp only [pyIntOpt, if_neg (digit_ne_dash hc), if_neg (digit_ne_plus hc), if_pos hd]

/-- C8: `normalize_version` appends `.0` to every two-component numeric
version string and returns every three-component version string unchanged. -/
theorem normalize_version_two_three (X Y Z : Str) (hX : allDigits X = true)
    (hY : allDigits Y = true) (hZ : allDigits Z = true) :
    normalize_version (X ++ '.' :: Y) = (X ++ '.' :: Y) ++ str ".0" ∧
    normalize_version (X ++ '.' :: (Y ++ '.' :: Z)) = X ++ '.' :: (Y ++ '.' :: Z) := by
  constructor
  · unfold normalize_version
    rw [split_two X Y hX hY]
    simp
  · unfold normalize_version
    rw [split_three X Y Z hX hY hZ]

/-- Witness for C8 at `X = "3"`, `Y = "5"`, `Z = "1"`. -/
theorem normalize_version_two_three_w :
    normalize_version (str "3" ++ '.' :: str "5") = (str "3" ++ '.' :: str "5") ++ str ".0" ∧
    normalize_version (str "3" ++ '.' :: (str "5" ++ '.' :: str "1")) =
      str "3" ++ '.' :: (str "5" ++ '.' :: str "1") :=
  normalize_version_two_three (str "3") (str "5") (str "1") (by decide) (by decide) (by decide)

/-- C6 counterexample: on a host whose path separator is `/`, the spec-side
normalization leaves `a/b` alone, but the code rewrites it to `a\b` — the
code always writes a backslash, not the host's separator. -/
theorem replace_text_not_platform_sep :
    replace_text (str "a/b") ≠ replace_text_spec '/' (str "a/b") := by decide

theorem pyReplaceAux_single (a b : Char) :
    ∀ (n : Nat) (s : Str), s.length ≤ n →
      pyReplaceAux [a] [b] n s = s.map (fun c => if c = a then b else c) := by
  intro n
  induction n with
  | zero =>
    intro s h
    have : s = [] := List.length_eq_zero.mp (Nat.le_zero.mp h)
    subst this; rfl
  | succ n ih =>
    intro s h
    match s with
    | [] => rfl
    | c :: cs =>
      have hlen : cs.length ≤ n := by simpa using h
      by_cases hc : c = a
      · have hpre : ([a] : Str) ≠ [] ∧ List.isPrefixOf [a] (c :: cs) = true := by
          refine ⟨by simp, ?_⟩
          simp [List.isPrefixOf, hc]
        simp only [pyReplaceAux, if_pos hpre, List.map_cons, if_pos hc]
        simp [ih cs hlen]
      · have hpre : ¬ (([a] : Str) ≠ [] ∧ List.isPrefixOf [a] (c :: cs) = true) := by
          rintro ⟨-, hp⟩
          simp [List.isPrefixOf] at hp
          exact hc hp.symm
        simp only [pyReplaceAux, if_neg hpre, List.map_cons, if_neg hc]
        rw [ih cs hlen]

/-- C6 amended: the normalization strips the per-line JSON wrapper pieces
and rewrites every forward slash to a backslash (the Windows separator),
irrespective of the host platform. -/
theorem replace_text_amended (t : Str) :
    replace_text t = replace_text_spec '\\' t ∧
    replace_text t =
      (pyReplace (pyReplace t (str "\x7b\"remoteName\": \"") []) (str "\"\x7d") []).map
        (fun c => if c = '/' then '\\' else c) := by
  constructor
  · rfl
  · unfold replace_text pyReplace
    exact pyReplaceAux_single '/' '\\' _ _ (Nat.le_refl _)

theorem all_takeWhile (p : Char → Bool) : ∀ s : Str, (s.takeWhile p).all p = true := by
  intro s
  induction s with
  | nil => rfl
  | cons a t ih => by_cases hp : p a <;> simp [List.takeWhile_cons, hp, ih]

theorem takeDigits1_some {s d r : Str} (h : takeDigits1 s = some (d, r)) :
    d ≠ [] ∧ allDigits d = true := by
  simp only [takeDigits1] at h
  by_cases he : s.takeWhile Char.isDigit = []
  · simp [he] at h
  · simp only [if_neg he, Option.some.injEq, Prod.mk.injEq] at h
    obtain ⟨hd, -⟩ := h
    subst hd
    exact ⟨he, all_takeWhile Char.isDigit s⟩

theorem matchNum2_shape {s m r : Str} (h : matchNum2 s = some (m, r)) :
    ∃ d1 d2, d1 ≠ [] ∧ d2 ≠ [] ∧ allDigits d1 = true ∧ allDigits d2 = true ∧
      m = d1 ++ '.' :: d2 := by
  unfold matchNum2 at h
  split at h
  · exact absurd h (by simp)
  rename_i d1 r1 heq1
  split at h
  · rename_i r2 hr1
    split at h
    · exact absurd h (by simp)
    rename_i d2 r3 heq2
    obtain ⟨hne1, hall1⟩ := takeDigits1_some heq1
    obtain ⟨hne2, hall2⟩ := takeDigits1_some heq2
    simp only [Option.some.injEq, Prod.mk.injEq] at h
    exact ⟨d1, d2, hne1, hne2, hall1, hall2, h.1.symm⟩
  · exact absurd h (by simp)

theorem extOpt_some {s e r2 : Str} (h : extOpt s = some (e, r2)) :
    ∃ d3, d3 ≠ [] ∧ allDigits d3 = true ∧ e = '.' :: d3 := by
  unfold extOpt at h
  split at h
  · rename_i r hr
    split at h
    · exact absurd h (by simp)
    rename_i d r' heq
    obtain ⟨hne, hall⟩ := takeDigits1_some heq
    simp only [Option.some.injEq, Prod.mk.injEq] at h
    exact ⟨d, hne, hall, h.1.symm⟩
  · exact absurd h (by simp)

theorem matchVer_shape {s m r : Str} (h : matchVer s = some (m, r)) : VerShape m := by
  unfold matchVer at h
  split at h
  · exact absurd h (by simp)
  rename_i m0 r0 heq
  obtain ⟨d1, d2, hne1, hne2, hall1, hall2, hm0⟩ := matchNum2_shape heq
  split at h
  · rename_i e r2 hext
    obtain ⟨d3, hne3, hall3, he⟩ := extOpt_some hext
    simp only [Option.some.injEq, Prod.mk.injEq] at h
    refine Or.inr ⟨d1, d2, d3, hne1, hne2, hne3, hall1, hall2, hall3, ?_⟩
    rw [← h.1, hm0, he]
    simp
  · simp only [Option.some.injEq, Prod.mk.injEq] at h
    exact Or.inl ⟨d1, d2, hne1, hne2, hall1, hall2, by rw [← h.1, hm0]⟩

theorem tryTail_shape {v1 r : Str} {a b : Str} (h : tryTail v1 r = some (a, b)) :
    a = v1 ∧ VerShape b := by
  unfold tryTail at h
  split at h
  · rename_i r2 hr
    split at h
    · exact absurd h (by simp)
    rename_i v2 r3 heq
    simp only [Option.some.injEq, Prod.mk.injEq] at h
    exact ⟨h.1.symm, h.2 ▸ matchVer_shape heq⟩
  · exact absurd h (by simp)

theorem tryFromTo_shape {s a b : Str} (h : tryFromTo s = some (a, b)) :
    VerShape a ∧ VerShape b := by
  unfold tryFromTo at h
  split at h
  · rename_i rest hs
    split at h
    · exact absurd h (by simp)
    rename_i m1 r1 heq1
    obtain ⟨d1, d2, hne1, hne2, hall1, hall2, hm1⟩ := matchNum2_shape heq1
    split at h
    · rename_i e r2 hext
      obtain ⟨d3, hne3, hall3, he⟩ := extOpt_some hext
      split at h
      · rename_i p htt
        obtain ⟨rfl, rfl⟩ : p.1 = a ∧ p.2 = b := by
          simp only [Option.some.injEq] at h
          exact ⟨congrArg Prod.fst h, congrArg Prod.snd h⟩
        obtain ⟨ha, hb⟩ := tryTail_shape htt
        refine ⟨?_, hb⟩
        rw [ha, hm1, he]
        exact Or.inr ⟨d1, d2, d3, hne1, hne2, hne3, hall1, hall2, hall3, by simp⟩
      · rename_i hnone
        obtain ⟨ha, hb⟩ := tryTail_shape h
        refine ⟨?_, hb⟩
        rw [ha, hm1]
        exact Or.inl ⟨d1, d2, hne1, hne2, hall1, hall2, rfl⟩
    · obtain ⟨ha, hb⟩ := tryTail_shape h
      refine ⟨?_, hb⟩
      rw [ha, hm1]
      exact Or.inl ⟨d1, d2, hne1, hne2, hall1, hall2, rfl⟩
  · exact absurd h (by simp)

theorem verPairSearch_shape {name a b : Str} (h : verPairSearch name = some (a, b)) :
    VerShape a ∧ VerShape b := by
  induction name with
  | nil => exact absurd h (by simp [verPairSearch])
  | cons c rest ih =>
    unfold verPairSearch at h
    split at h
    · rename_i p hp
      simp only [Option.some.injEq] at h
      subst h
      exact tryFromTo_shape hp
    · exact ih h

theorem majMin_norm_two (d1 d2 : Str) (hne1 : d1 ≠ []) (hne2 : d2 ≠ [])
    (h1 : allDigits d1 = true) (h2 : allDigits d2 = true) :
    majMinOfVersion (normalize_version (d1 ++ '.' :: d2)) =
      some (Int.ofNat (digitsToNat d1), Int.ofNat (digitsToNat d2)) ∧
    vMajMin (normalize_version (d1 ++ '.' :: d2)) =
      (Int.ofNat (digitsToNat d1), Int.ofNat (digitsToNat d2)) := by
  have hnorm := (normalize_version_two_three d1 d2 d2 h1 h2 h2).1
  have hs : (d1 ++ '.' :: d2) ++ str ".0" = d1 ++ '.' :: (d2 ++ '.' :: ['0']) := by
    simp [str]
  rw [hnorm, hs]
  have hsplit := split_three d1 d2 ['0'] h1 h2 (by decide)
  constructor
  · simp only [majMinOfVersion, hsplit, List.take]
    rw [pyIntOpt_digits hne1 h1, pyIntOpt_digits hne2 h2]
  · simp only [vMajMin, hsplit]

theorem majMin_norm_three (d1 d2 d3 : Str) (hne1 : d1 ≠ []) (hne2 : d2 ≠ [])
    (h1 : allDigits d1 = true) (h2 : allDigits d2 = true) (h3 : allDigits d3 = true) :
    majMinOfVersion (normalize_version (d1 ++ '.' :: (d2 ++ '.' :: d3))) =
      some (Int.ofNat (digitsToNat d1), Int.ofNat (digitsToNat d2)) ∧
    vMajMin (normalize_version (d1 ++ '.' :: (d2 ++ '.' :: d3))) =
      (Int.ofNat (digitsToNat d1), Int.ofNat (digitsToNat d2)) := by
  have hnorm := (normalize_version_two_three d1 d2 d3 h1 h2 h3).2
  rw [hnorm]
  have hsplit := split_three d1 d2 d3 h1 h2 h3
  constructor
  · simp only [majMinOfVersion, hsplit, List.take]
    rw [pyIntOpt_digits hne1 h1, pyIntOpt_digits hne2 h2]
  · simp only [vMajMin, hsplit]

/-- Every raw regex match, once normalized, has a well-defined major/minor
pair: the Python tuple unpacking and `int` conversions in
`process_logical_archive` cannot fail on it. -/
theorem verShape_majMin {m : Str} (h : VerShape m) :
    majMinOfVersion (normalize_version m) = some (vMajMin (normalize_version m)) := by
  rcases h with ⟨d1, d2, hne1, hne2, h1, h2, rfl⟩ | ⟨d1, d2, d3, hne1, hne2, hne3, h1, h2, h3, rfl⟩
  · obtain ⟨ha, hb⟩ := majMin_norm_two d1 d2 hne1 hne2 h1 h2
    rw [ha, hb]
  · obtain ⟨ha, hb⟩ := majMin_norm_three d1 d2 d3 hne1 hne2 h1 h2 h3
    rw [ha, hb]

/-- C1: the migration decision of `process_logical_archive` is `true`
exactly when the filename encodes a version pair whose source major/minor
is lexicographically below (3, 6) and whose destination major/minor is at
or above it (the patch component never enters the comparison); whenever the
decision is `false` — in particular when no version pair parses — the
delete-manifest step runs instead of the migration. -/
theorem migration_decision_spec (name : Str) :
    (migrationDecision name = true ↔
      ∃ fv tv, parse_from_to_versions_from_name name = some (fv, tv) ∧
        pairLt (vMajMin fv) (3, 6) = true ∧ pairLt (vMajMin tv) (3, 6) = false) ∧
    (∀ (E : Ext) (gf : Str) (st : FS), migrationDecision name = false →
      process_logical_archive E gf name st = apply_hdiff E (delete_files E st)) := by
  constructor
  · cases hp : parse_from_to_versions_from_name name with
    | none =>
      simp only [migrationDecision, hp]
      constructor
      · intro hf; exact absurd hf (by simp)
      · rintro ⟨fv, tv, hsome, -⟩
        exact absurd hsome (by simp)
    | some p =>
      obtain ⟨fv, tv⟩ := p
      have hab : ∃ a b, verPairSearch name = some (a, b) ∧
          fv = normalize_version a ∧ tv = normalize_version b := by
        unfold parse_from_to_versions_from_name at hp
        split at hp
        · rename_i a b hs
          simp only [Option.some.injEq, Prod.mk.injEq] at hp
          exact ⟨a, b, hs, hp.1.symm, hp.2.symm⟩
        · exact absurd hp (by simp)
      obtain ⟨a, b, hs, rfl, rfl⟩ := hab
      obtain ⟨sha, shb⟩ := verPairSearch_shape hs
      have hfa := verShape_majMin sha
      have hfb := verShape_majMin shb
      simp only [migrationDecision, hp, hfa, hfb]
      constructor
      · intro ht
        have ht' : pairLt (vMajMin (normalize_version a)) (3, 6) = true ∧
            (!pairLt (vMajMin (normalize_version b)) (3, 6)) = true := by
          simpa using ht
        exact ⟨_, _, rfl, ht'.1, by simpa using ht'.2⟩
      · rintro ⟨fv', tv', heq, h1, h2⟩
        simp only [Option.some.injEq, Prod.mk.injEq] at heq
        rw [← heq.1] at h1
        rw [← heq.2] at h2
        simp [h1, h2]
  · intro E gf st hd
    simp [process_logical_archive, hd]

/-- Witness for C1: a threshold-crossing name decides `true`; a name with
no version pair decides `false` and takes the delete-manifest branch. -/
theorem migration_decision_spec_w :
    migrationDecision (str "game_3.5.0_3.6.0.zip") = true ∧
    process_logical_archive extIdNone (str "GenshinImpact_Data") (str "other.zip") multipartFS =
      apply_hdiff extIdNone (delete_files extIdNone multipartFS) :=
  ⟨(migration_decision_spec (str "game_3.5.0_3.6.0.zip")).1.mpr
      ⟨str "3.5.0", str "3.6.0", by decide, by decide, by decide⟩,
    (migration_decision_spec (str "other.zip")).2 extIdNone (str "GenshinImpact_Data")
      multipartFS (by decide)⟩

/-! ### Filesystem helper lemmas -/

theorem isFileFS_true_iff {st : FS} {p : Str} :
    isFileFS st p = true ↔ ∃ f ∈ st.files, f.path = p := by
  simp [isFileFS]

theorem isFileFS_false_iff {st : FS} {p : Str} :
    isFileFS st p = false ↔ ∀ f ∈ st.files, f.path ≠ p := by
  rw [← Bool.not_eq_true, isFileFS_true_iff]
  simp

theorem isFileFS_unlink (p : Str) (st : FS) : isFileFS (unlinkFS p st) p = false := by
  rw [isFileFS_false_iff]
  intro f hf
  simp only [unlinkFS, List.mem_filter, decide_eq_true_eq] at hf
  exact hf.2

theorem unlink_no_new {p : Str} {st : FS} {f : FSFile} (h : f ∈ (unlinkFS p st).files) :
    f ∈ st.files := by
  simp only [unlinkFS, List.mem_filter] at h
  exact h.1

theorem map_path_preserving (g : FSFile → FSFile) (hg : ∀ f, (g f).path = f.path)
    (l : List FSFile) (p : Str) :
    (l.map g).any (fun f => decide (f.path = p)) = l.any (fun f => decide (f.path = p)) := by
  induction l with
  | nil => rfl
  | cons f fs ih => simp [hg, ih]

theorem isFileFS_ensureWritable (q p : Str) (st : FS) :
    isFileFS (ensureWritableFS q st) p = isFileFS st p := by
  unfold ensureWritableFS isFileFS
  exact map_path_preserving _ (fun f => by by_cases hf : f.path = q <;> simp [hf]) _ _

theorem isFileFS_makeWritable (q p : Str) (st : FS) :
    isFileFS (makeWritableRec q st) p = isFileFS st p := by
  unfold makeWritableRec
  by_cases h1 : isFileFS st q
  · rw [if_pos h1]
    exact isFileFS_ensureWritable q p st
  · rw [if_neg h1]
    by_cases h2 : isDirFS st q
    · rw [if_pos h2]
      exact map_path_preserving _
        (fun f => by by_cases hf : strictUnderB q f.path <;> simp [hf]) _ _
    · rw [if_neg h2]

theorem makeWritable_files_paths {q : Str} {st : FS} {f : FSFile}
    (h : f ∈ (makeWritableRec q st).files) : ∃ g ∈ st.files, f.path = g.path := by
  unfold makeWritableRec at h
  by_cases h1 : isFileFS st q
  · rw [if_pos h1] at h
    simp only [ensureWritableFS, List.mem_map] at h
    obtain ⟨g, hg, rfl⟩ := h
    refine ⟨g, hg, ?_⟩
    by_cases hf : g.path = q <;> simp [hf]
  · rw [if_neg h1] at h
    by_cases h2 : isDirFS st q
    · rw [if_pos h2] at h
      simp only [List.mem_map] at h
      obtain ⟨g, hg, rfl⟩ := h
      refine ⟨g, hg, ?_⟩
      by_cases hf : strictUnderB q g.path <;> simp [hf]
    · rw [if_neg h2] at h
      exact ⟨f, h, rfl⟩

theorem deleteEntry_files_paths {E : Ext} {st : FS} {l : Str} {f : FSFile}
    (h : f ∈ (deleteEntry E st l).files) : ∃ g ∈ st.files, f.path = g.path := by
  simp only [deleteEntry] at h
  split at h
  · exact ⟨f, h, rfl⟩
  · split at h
    · split at h
      · exact makeWritable_files_paths h
      · exact makeWritable_files_paths (unlink_no_new h)
    · split at h
      · simp only [rmtreeFS, List.mem_filter] at h
        exact makeWritable_files_paths h.1
      · exact makeWritable_files_paths h

/-! ### C4: the delete manifest -/

/-- C4: for a delete-manifest run, an existing listed file (whose unlink
the OS does not fail) is removed; a missing target leaves the state
untouched; an entry's outcome never stops the loop, which continues on the
remaining lines; and after `delete_files` the manifest `deletefiles.txt`
itself no longer exists. -/
theorem delete_files_spec (E : Ext) (st : FS) (line : Str) (rest : List Str) :
    (isFileFS st (pathOf (pyStrip line)) = true →
      E.delFail (pathOf (pyStrip line)) = false →
      isFileFS (deleteEntry E st line) (pathOf (pyStrip line)) = false) ∧
    (existsFS st (pathOf (pyStrip line)) = false → deleteEntry E st line = st) ∧
    (deleteLoop E st (line :: rest) = deleteLoop E (deleteEntry E st line) rest) ∧
    isFileFS (delete_files E st) (str "deletefiles.txt") = false := by
  refine ⟨?_, ?_, rfl, ?_⟩
  · intro hfile hfail
    unfold deleteEntry
    have hex : ¬ existsFS st (pathOf (pyStrip line)) = false := by
      simp [existsFS, hfile]
    rw [if_neg hex]
    have hfile1 : isFileFS (makeWritableRec (pathOf (pyStrip line)) st)
        (pathOf (pyStrip line)) = true := by
      rw [isFileFS_makeWritable]; exact hfile
    rw [if_pos hfile1, if_neg (by simp [hfail])]
    exact isFileFS_unlink _ _
  · intro hex
    simp [deleteEntry, hex]
  · unfold delete_files
    by_cases h : isFileFS st (str "deletefiles.txt") = false
    · simp [h]
    · simp only [if_neg h]
      exact isFileFS_unlink _ _

/-- Witness for C4 on a manifest listing an existing and a missing file. -/
theorem delete_files_spec_w :
    isFileFS (deleteEntry extIdNone deleteFS (str "a.txt")) (pathOf (pyStrip (str "a.txt"))) = false ∧
    deleteEntry extIdNone deleteFS (str "missing.txt") = deleteFS ∧
    isFileFS (delete_files extIdNone deleteFS) (str "deletefiles.txt") = false :=
  ⟨(delete_files_spec extIdNone deleteFS (str "a.txt") []).1 (by decide) (by decide),
    (delete_files_spec extIdNone deleteFS (str "missing.txt") []).2.1 (by decide),
    (delete_files_spec extIdNone deleteFS (str "a.txt") []).2.2.2⟩

/-! ### C10: an empty manifest line denotes the working directory -/

theorem readD_map_content (p c : Str) : ∀ l : List FSFile, (∃ f ∈ l, f.path = p) →
    (match (l.map (fun f => if f.path = p then { f with content := c } else f)).find?
        (fun f => decide (f.path = p)) with
      | some f => f.content
      | none => []) = c := by
  intro l
  induction l with
  | nil => rintro ⟨f, hf, -⟩; cases hf
  | cons f fs ih =>
    rintro ⟨g, hg, hgp⟩
    by_cases hf : f.path = p
    · simp [List.find?, hf]
    · rcases List.mem_cons.mp hg with rfl | hmem
      · exact absurd hgp hf
      · have hd : decide (f.path = p) = false := by simp [hf]
        simp only [List.map_cons, if_neg hf, List.find?, hd]
        exact ih ⟨g, hmem, hgp⟩

theorem readD_writeFS (p c : Str) (st : FS) : readD (writeFS p c st) p = c := by
  unfold writeFS
  by_cases h : isFileFS st p
  · rw [if_pos h]
    exact readD_map_content p c st.files (isFileFS_true_iff.mp h)
  · rw [if_neg h]
    simp [readD, List.find?]

theorem readD_replace_text {p : Str} {st : FS} (h : isFileFS st p = true) :
    readD (replace_text_in_file p st) p = replace_text (readD st p) := by
  unfold replace_text_in_file
  rw [if_pos h]
  exact readD_writeFS p _ st

theorem replace_text_in_file_paths {p : Str} {st : FS} {f : FSFile}
    (h : f ∈ (replace_text_in_file p st).files) : ∃ g ∈ st.files, f.path = g.path := by
  unfold replace_text_in_file at h
  by_cases hf : isFileFS st p
  · rw [if_pos hf] at h
    unfold writeFS at h
    rw [if_pos hf] at h
    simp only [List.mem_map] at h
    obtain ⟨g, hg, rfl⟩ := h
    refine ⟨g, hg, ?_⟩
    by_cases hgp : g.path = p <;> simp [hgp]
  · rw [if_neg hf] at h
    exact ⟨f, h, rfl⟩

theorem rmtree_dot {st : FS} (hdot : ∀ f ∈ st.files, f.path ≠ ['.']) :
    rmtreeFS ['.'] st = FS.mk [] [] := by
  unfold rmtreeFS
  have h1 : st.files.filter (fun f => !strictUnderB ['.'] f.path) = [] := by
    rw [List.filter_eq_nil_iff]
    intro f hf
    simp [strictUnderB, hdot f hf]
  have h2 : st.dirs.filter (fun x => decide (x ≠ ['.']) && !strictUnderB ['.'] x) = [] := by
    rw [List.filter_eq_nil_iff]
    intro d hd
    by_cases hx : d = ['.'] <;> simp [strictUnderB, hx]
  rw [h1, h2]

theorem deleteEntry_wipe {E : Ext} {st : FS} {l : Str} (hl : pyStrip l = [])
    (hdot : ∀ f ∈ st.files, f.path ≠ ['.']) :
    deleteEntry E st l = FS.mk [] [] := by
  have htarget : pathOf (pyStrip l) = ['.'] := by rw [hl]; rfl
  have hfile : isFileFS st ['.'] = false := isFileFS_false_iff.mpr hdot
  have hfile1 : isFileFS (makeWritableRec ['.'] st) ['.'] = false := by
    rw [isFileFS_makeWritable]; exact hfile
  have hdir1 : isDirFS (makeWritableRec ['.'] st) ['.'] = true := by
    have hdirs : (makeWritableRec ['.'] st).dirs = st.dirs := by
      unfold makeWritableRec
      by_cases h1 : isFileFS st ['.']
      · rw [if_pos h1]; rfl
      · rw [if_neg h1]
        by_cases h2 : isDirFS st ['.']
        · rw [if_pos h2]
        · rw [if_neg h2]
    simp [isDirFS, hdirs]
  simp only [deleteEntry, htarget]
  rw [if_neg (by simp [existsFS, isDirFS]), if_neg (by simp [hfile1]), if_pos hdir1]
  apply rmtree_dot
  intro f hf
  obtain ⟨g, hg, he⟩ := makeWritable_files_paths hf
  rw [he]
  exact hdot g hg

theorem deleteEntry_emptyState (E : Ext) (l : Str) :
    deleteEntry E (FS.mk [] []) l = FS.mk [] [] := by
  by_cases hp : pathOf (pyStrip l) = ['.']
  · have hmw : makeWritableRec ['.'] (FS.mk [] []) = FS.mk [] [] := by
      simp [makeWritableRec, isFileFS, isDirFS]
    simp only [deleteEntry, hp]
    rw [if_neg (by simp [existsFS, isDirFS]), hmw,
      if_neg (by simp [isFileFS]), if_pos (by simp [isDirFS])]
    exact rmtree_dot (by simp)
  · simp [deleteEntry, existsFS, isFileFS, isDirFS, hp]

theorem deleteLoop_emptyState (E : Ext) (lines : List Str) :
    deleteLoop E (FS.mk [] []) lines = FS.mk [] [] := by
  induction lines with
  | nil => rfl
  | cons l rest ih => simp only [deleteLoop, deleteEntry_emptyState, ih]

theorem deleteLoop_wipe (E : Ext) (lines : List Str) :
    ∀ st : FS, (∀ f ∈ st.files, f.path ≠ ['.']) → (∃ l ∈ lines, pyStrip l = []) →
      deleteLoop E st lines = FS.mk [] [] := by
  induction lines with
  | nil =>
    rintro st - ⟨l, hl, -⟩
    exact absurd hl (by simp)
  | cons l0 rest ih =>
    rintro st hdot ⟨l, hl, hstrip⟩
    rcases List.mem_cons.mp hl with rfl | hmem
    · simp only [deleteLoop]
      rw [deleteEntry_wipe hstrip hdot]
      exact deleteLoop_emptyState E rest
    · simp only [deleteLoop]
      apply ih
      · intro f hf
        obtain ⟨g, hg, he⟩ := deleteEntry_files_paths hf
        rw [he]
        exact hdot g hg
      · exact ⟨l, hmem, hstrip⟩

theorem makeWritable_dot_all {st : FS} (hdot : ∀ f ∈ st.files, f.path ≠ ['.']) :
    ∀ f ∈ (makeWritableRec ['.'] st).files, f.writable = true := by
  intro f hf
  have hfile : isFileFS st ['.'] = false := isFileFS_false_iff.mpr hdot
  unfold makeWritableRec at hf
  rw [if_neg (by simp [hfile]), if_pos (by simp [isDirFS])] at hf
  simp only [List.mem_map] at hf
  obtain ⟨g, hg, rfl⟩ := hf
  have hu : strictUnderB ['.'] g.path = true := by simp [strictUnderB, hdot g hg]
  simp [hu]

/-- C10: a whitespace-only line in the delete manifest becomes `Path("")`,
i.e. the working directory `"."`, which exists as a directory; the entry is
not skipped — the whole tree is first made writable and then recursively
deleted, leaving nothing (the manifest and all sibling entries included). -/
theorem delete_files_empty_line_wipes (E : Ext) (st : FS)
    (hfile : isFileFS st (str "deletefiles.txt") = true)
    (hdot : ∀ f ∈ st.files, f.path ≠ ['.'])
    (hline : ∃ l ∈ pySplitlines (replace_text (readD st (str "deletefiles.txt"))),
      pyStrip l = []) :
    delete_files E st = FS.mk [] [] ∧
    (∀ f ∈ (makeWritableRec ['.'] st).files, f.writable = true) := by
  refine ⟨?_, makeWritable_dot_all hdot⟩
  simp only [delete_files]
  rw [if_neg (by simp [hfile])]
  rw [readD_replace_text hfile]
  have hdot1 : ∀ f ∈ (replace_text_in_file (str "deletefiles.txt") st).files, f.path ≠ ['.'] := by
    intro f hf
    obtain ⟨g, hg, he⟩ := replace_text_in_file_paths hf
    rw [he]
    exact hdot g hg
  rw [deleteLoop_wipe E _ _ hdot1 hline]
  rfl

/-- Witness for C10: a manifest whose content is a single newline wipes the
tree. -/
theorem delete_files_empty_line_wipes_w :
    delete_files extIdNone wipeFS = FS.mk [] [] ∧
    (∀ f ∈ (makeWritableRec ['.'] wipeFS).files, f.writable = true) :=
  delete_files_empty_line_wipes extIdNone wipeFS (by decide) (by decide)
    ⟨[], by decide, by decide⟩

/-! ### C5 and C3: the diff manifest -/

/-- C5: an entry with no `.hdiff` artifact is skipped — the loop continues
on the remaining entries from an unchanged state; a successfully patched
entry deletes its `.hdiff` artifact and the loop continues with the
applied-at-least-one-patch flag set; once set, the flag is what the loop
returns on success. -/
theorem apply_hdiff_skip_success (E : Ext) (st : FS) (line : Str) (rest : List Str) (p : Bool) :
    (pyStrip line ≠ [] → isFileFS st (pyStrip line ++ str ".hdiff") = false →
      hdiffLoop E st (line :: rest) p = hdiffLoop E st rest p) ∧
    (∀ nc : Str, pyStrip line ≠ [] → isFileFS st (pyStrip line ++ str ".hdiff") = true →
      E.hpatch (readD (ensureWritableFS (pyStrip line) st) (pyStrip line))
          (readD (ensureWritableFS (pyStrip line) st) (pyStrip line ++ str ".hdiff")) =
        some nc →
      hdiffLoop E st (line :: rest) p =
        hdiffLoop E
          (unlinkFS (pyStrip line ++ str ".hdiff")
            (writeFS (pyStrip line) nc (ensureWritableFS (pyStrip line) st))) rest true ∧
      isFileFS
        (unlinkFS (pyStrip line ++ str ".hdiff")
          (writeFS (pyStrip line) nc (ensureWritableFS (pyStrip line) st)))
        (pyStrip line ++ str ".hdiff") = false) ∧
    (∀ (lines : List Str) (st' r : FS) (b : Bool),
      hdiffLoop E st' lines true = .ok (r, b) → b = true) := by
  refine ⟨?_, ?_, ?_⟩
  · intro hne habs
    simp only [hdiffLoop]
    rw [if_neg hne, if_pos habs]
  · intro nc hne hhd hpa
    simp only [hdiffLoop]
    rw [if_neg hne, if_neg (by simp [hhd]), hpa]
    exact ⟨rfl, isFileFS_unlink _ _⟩
  · intro lines
    induction lines with
    | nil =>
      intro st' r b h
      simpa [hdiffLoop] using (Prod.mk.injEq _ _ _ _).mp (Except.ok.inj h) |>.2.symm
    | cons l0 rest0 ih =>
      intro st' r b h
      simp only [hdiffLoop] at h
      by_cases h0 : pyStrip l0 = []
      · rw [if_pos h0] at h
        exact ih st' r b h
      · rw [if_neg h0] at h
        by_cases h1 : isFileFS st' (pyStrip l0 ++ str ".hdiff") = false
        · rw [if_pos h1] at h
          exact ih st' r b h
        · rw [if_neg h1] at h
          cases hpa : Ext.hpatch E (readD (ensureWritableFS (pyStrip l0) st') (pyStrip l0))
              (readD (ensureWritableFS (pyStrip l0) st') (pyStrip l0 ++ str ".hdiff")) with
          | none => rw [hpa] at h; exact absurd h (by simp)
          | some nc => rw [hpa] at h; exact ih _ r b h

/-- Witness for C5 on the two-entry scenario manifest. -/
theorem apply_hdiff_skip_success_w :
    (hdiffLoop extIdConcat hdiffFS [str "no.bin", str "data.bin"] false =
      hdiffLoop extIdConcat hdiffFS [str "data.bin"] false) ∧
    (hdiffLoop extIdConcat hdiffFS [str "data.bin"] false =
      hdiffLoop extIdConcat
        (unlinkFS (pyStrip (str "data.bin") ++ str ".hdiff")
          (writeFS (pyStrip (str "data.bin")) (str "OLDD")
            (ensureWritableFS (pyStrip (str "data.bin")) hdiffFS))) [] true ∧
      isFileFS
        (unlinkFS (pyStrip (str "data.bin") ++ str ".hdiff")
          (writeFS (pyStrip (str "data.bin")) (str "OLDD")
            (ensureWritableFS (pyStrip (str "data.bin")) hdiffFS)))
        (pyStrip (str "data.bin") ++ str ".hdiff") = false) :=
  ⟨(apply_hdiff_skip_success extIdConcat hdiffFS (str "no.bin") [str "data.bin"] false).1
      (by decide) (by decide),
    (apply_hdiff_skip_success extIdConcat hdiffFS (str "data.bin") [] false).2.1 (str "OLDD")
      (by decide) (by decide) (by decide)⟩

/-- C3: a non-zero exit of the diff tool on an entry is re-raised — the
loop's result is the error state regardless of what entries follow (so none
of them is processed), and `apply_hdiff` propagates the error instead of
returning a success result for the manifest. -/
theorem apply_hdiff_failure_fatal (E : Ext) (st : FS) (line : Str) (rest : List Str) (p : Bool) :
    (pyStrip line ≠ [] → isFileFS st (pyStrip line ++ str ".hdiff") = true →
      E.hpatch (readD (ensureWritableFS (pyStrip line) st) (pyStrip line))
          (readD (ensureWritableFS (pyStrip line) st) (pyStrip line ++ str ".hdiff")) = none →
      hdiffLoop E st (line :: rest) p = .error (ensureWritableFS (pyStrip line) st)) ∧
    (∀ s' : FS, isFileFS st (str "hdifffiles.txt") = true →
      hdiffLoop E (replace_text_in_file (str "hdifffiles.txt") st)
        (pySplitlines (readD (replace_text_in_file (str "hdifffiles.txt") st)
          (str "hdifffiles.txt"))) false = .error s' →
      apply_hdiff E st = .error s') := by
  constructor
  · intro hne hhd hpa
    simp only [hdiffLoop]
    rw [if_neg hne, if_neg (by simp [hhd]), hpa]
  · intro s' hman hloop
    simp only [apply_hdiff]
    rw [if_neg (by simp [hman]), hloop]

/-- Witness for C3: the always-failing diff tool on the scenario manifest. -/
theorem apply_hdiff_failure_fatal_w :
    (hdiffLoop extIdNone hdiffFS [str "data.bin", str "later.bin"] false =
      .error (ensureWritableFS (pyStrip (str "data.bin")) hdiffFS)) ∧
    apply_hdiff extIdNone hdiffFS = .error hdiffFS :=
  ⟨(apply_hdiff_failure_fatal extIdNone hdiffFS (str "data.bin") [str "later.bin"] false).1
      (by decide) (by decide) (by decide),
    (apply_hdiff_failure_fatal extIdNone hdiffFS (str "data.bin") [] false).2 hdiffFS
      (by decide) (by decide)⟩

/-! ### String ordering: `strLt` is a strict linear order -/

theorem strLt_asymm : ∀ a b : Str, strLt a b = true → strLt b a = false := by
  intro a
  induction a with
  | nil =>
    intro b h
    cases b <;> simp [strLt] at h ⊢
  | cons x xs ih =>
    intro b h
    cases b with
    | nil => simp [strLt] at h
    | cons y ys =>
      simp only [strLt, Bool.or_eq_true, Bool.and_eq_true, decide_eq_true_eq] at h
      rw [Bool.eq_false_iff]
      intro hc
      simp only [strLt, Bool.or_eq_true, Bool.and_eq_true, decide_eq_true_eq] at hc
      rcases h with h1 | ⟨he, h2⟩
      · rcases hc with hc1 | ⟨hce, -⟩
        · exact absurd hc1 (lt_asymm h1)
        · rw [hce] at h1; exact lt_irrefl x h1
      · rcases hc with hc1 | ⟨-, hc2⟩
        · rw [he] at hc1; exact lt_irrefl y hc1
        · have hf := ih ys h2
          rw [Bool.eq_false_iff] at hf
          exact hf hc2

theorem strLt_trans : ∀ a b c : Str, strLt a b = true → strLt b c = true → strLt a c = true := by
  intro a
  induction a with
  | nil =>
    intro b c h1 h2
    cases b with
    | nil => simp [strLt] at h1
    | cons y ys =>
      cases c with
      | nil => simp [strLt] at h2
      | cons z zs => simp [strLt]
  | cons x xs ih =>
    intro b c h1 h2
    cases b with
    | nil => simp [strLt] at h1
    | cons y ys =>
      cases c with
      | nil => simp [strLt] at h2
      | cons z zs =>
        simp only [strLt, Bool.or_eq_true, Bool.and_eq_true, decide_eq_true_eq] at h1 h2 ⊢
        rcases h1 with hxy | ⟨hxy, hxs⟩
        · rcases h2 with hyz | ⟨hyz, -⟩
          · exact Or.inl (lt_trans hxy hyz)
          · exact Or.inl (by rw [← hyz]; exact hxy)
        · rcases h2 with hyz | ⟨hyz, hys⟩
          · exact Or.inl (by rw [hxy]; exact hyz)
          · exact Or.inr ⟨hxy.trans hyz, ih ys zs hxs hys⟩

theorem strLt_connex : ∀ a b : Str, strLt a b = false → strLt b a = false → a = b := by
  intro a
  induction a with
  | nil =>
    intro b h1 h2
    cases b with
    | nil => rfl
    | cons y ys => simp [strLt] at h1
  | cons x xs ih =>
    intro b h1 h2
    cases b with
    | nil => simp [strLt] at h2
    | cons y ys =>
      rw [Bool.eq_false_iff] at h1 h2
      have hxy : ¬ x < y := fun hc => h1 (by simp [strLt, hc])
      have hyx : ¬ y < x := fun hc => h2 (by simp [strLt, hc])
      have he : x = y := le_antisymm (not_lt.mp hyx) (not_lt.mp hxy)
      subst he
      have hxs : strLt xs ys = false := by
        rw [Bool.eq_false_iff]
        intro hc
        exact h1 (by simp [strLt, hc])
      have hys : strLt ys xs = false := by
        rw [Bool.eq_false_iff]
        intro hc
        exact h2 (by simp [strLt, hc])
      rw [ih ys hxs hys]

instance : IsTotal Str strLeP :=
  ⟨by
    intro a b
    unfold strLeP strLe
    by_cases h : strLt b a = true
    · right
      rw [strLt_asymm b a h]
      rfl
    · left
      rw [Bool.not_eq_true] at h
      rw [h]
      rfl⟩

instance : IsTrans Str strLeP :=
  ⟨by
    intro a b c h1 h2
    unfold strLeP strLe at h1 h2 ⊢
    rw [Bool.not_eq_true'] at h1 h2
    rw [Bool.not_eq_true']
    by_cases hca : strLt c a = true
    · by_cases hab : strLt a b = true
      · have := strLt_trans c a b hca hab
        rw [h2] at this
        exact absurd this (by simp)
      · have he := strLt_connex a b (by simpa using hab) h1
        rw [← he] at h2
        rw [h2] at hca
        exact absurd hca (by simp)
    · simpa using hca⟩

/-! ### C2: sibling-part grouping and deletion -/

theorem matchesExtZeros1_stem {name : Str} (h : matchesExtZeros1 name = true) :
    ∃ s, stemOfExtFirst name = some s := by
  unfold matchesExtZeros1 at h
  unfold stemOfExtFirst
  split at h
  · rename_i r1 heq
    exact ⟨((List.dropWhile (fun c => decide (c = '0')) r1).tail).reverse, by simp [h]⟩
  · exact absurd h (by simp)

theorem unlink_mono {q p : Str} {st : FS} (h : isFileFS st p = false) :
    isFileFS (unlinkFS q st) p = false := by
  rw [isFileFS_false_iff] at h ⊢
  intro f hf
  exact h f (unlink_no_new hf)

theorem unlinkList_mono (ps : List Str) :
    ∀ (st : FS) (p : Str), isFileFS st p = false → isFileFS (unlinkList ps st) p = false := by
  induction ps with
  | nil => intro st p h; exact h
  | cons q rest ih =>
    intro st p h
    exact ih (unlinkFS q st) p (unlink_mono h)

theorem unlinkList_not_file (ps : List Str) :
    ∀ (st : FS) (p : Str), p ∈ ps → isFileFS (unlinkList ps st) p = false := by
  induction ps with
  | nil =>
    intro st p h
    exact absurd h (by simp)
  | cons q rest ih =>
    intro st p h
    rcases List.mem_cons.mp h with rfl | hmem
    · exact unlinkList_mono rest (unlinkFS p st) p (isFileFS_unlink p st)
    · exact ih (unlinkFS q st) p hmem

/-- C2: for a first-part file, the logical-archive group is exactly the
working-directory entries passing the sibling glob, ordered
lexicographically by filename; every collected part is gone from the state
right after the part-deletion loop, whatever the extraction did; and on the
spec's scenario the unrelated archive survives while all three parts are
deleted. -/
theorem collect_parts_spec (st : FS) (first : Str) (f p : Str) (E : Ext) :
    (is_multipart_first first = true →
      (f ∈ collect_parts_for_first st first ↔
        f ∈ cwdEntryNames st ∧ siblingGlob first f = true)) ∧
    List.Sorted strLeP (collect_parts_for_first st first) ∧
    (p ∈ collect_parts_for_first (E.extract first st) first →
      isFileFS (afterPartsDeleted E first st) p = false) ∧
    extract_multipart_and_process extIdNone (str "GenshinImpact_Data") (str "update.zip.001")
        multipartFS =
      .ok (FS.mk [mkFile "other.zip" "w"] [str "GenshinImpact_Data"], false) := by
  refine ⟨?_, ?_, ?_, by decide⟩
  · intro hf
    cases hs : stemOfExtFirst first with
    | some stem =>
      simp only [collect_parts_for_first, siblingGlob, hs, sortStr]
      rw [List.mem_insertionSort strLeP, List.mem_filter]
    | none =>
      by_cases hp1 : (str ".part1.rar").isSuffixOf (lowerStr first) = true
      · simp only [collect_parts_for_first, siblingGlob, hs, if_pos hp1, sortStr]
        rw [List.mem_insertionSort strLeP, List.mem_filter]
      · unfold is_multipart_first at hf
        rcases Bool.or_eq_true _ _ |>.mp hf with h1 | h1
        · obtain ⟨s, hss⟩ := matchesExtZeros1_stem h1
          rw [hss] at hs
          exact absurd hs (by simp)
        · exact absurd h1 (by simp [hp1])
  · cases hs : stemOfExtFirst first with
    | some stem =>
      simp only [collect_parts_for_first, hs, sortStr]
      exact List.sorted_insertionSort strLeP _
    | none =>
      by_cases hp1 : (str ".part1.rar").isSuffixOf (lowerStr first) = true
      · simp only [collect_parts_for_first, hs, if_pos hp1, sortStr]
        exact List.sorted_insertionSort strLeP _
      · simp only [collect_parts_for_first, hs]
        rw [if_neg (by simpa using hp1)]
        exact List.sorted_singleton first
  · intro hp
    exact unlinkList_not_file _ _ _ hp

/-- Witness for C2 on the spec's `update.zip.001/2/3` + `other.zip` tree. -/
theorem collect_parts_spec_w :
    ((str "update.zip.002") ∈ collect_parts_for_first multipartFS (str "update.zip.001") ↔
      (str "update.zip.002") ∈ cwdEntryNames multipartFS ∧
        siblingGlob (str "update.zip.001") (str "update.zip.002") = true) ∧
    isFileFS (afterPartsDeleted extIdNone (str "update.zip.001") multipartFS)
      (str "update.zip.002") = false :=
  ⟨(collect_parts_spec multipartFS (str "update.zip.001") (str "update.zip.002")
      (str "update.zip.002") extIdNone).1 (by decide),
    (collect_parts_spec multipartFS (str "update.zip.001") (str "update.zip.002")
      (str "update.zip.002") extIdNone).2.2.1 (by decide)⟩

/-! ### C7: non-first parts are never driven independently -/

/-- C7: a file matching a non-first multipart pattern (`is_part_file_name`
but not `is_multipart_first`) is neither enumerated as a multipart head nor
kept as a standalone candidate — the only two lists `main` feeds to
extraction. -/
theorem nonfirst_part_never_standalone (st : FS) (name : Str)
    (hpart : is_part_file_name name = true) (hnotfirst : is_multipart_first name = false) :
    name ∉ get_multipart_first_parts st ∧ name ∉ mainFiltered st := by
  constructor
  · intro hmem
    unfold get_multipart_first_parts sortStr at hmem
    rw [List.mem_insertionSort] at hmem
    have hm := (List.mem_filter.mp hmem).2
    rw [hnotfirst] at hm
    exact absurd hm (by simp)
  · intro hmem
    unfold mainFiltered at hmem
    have hm := (List.mem_filter.mp hmem).2
    rw [hpart] at hm
    exact absurd hm (by simp)

/-- Witness for C7 at the sibling part `update.zip.002`. -/
theorem nonfirst_part_never_standalone_w :
    (str "update.zip.002") ∉ get_multipart_first_parts multipartFS ∧
    (str "update.zip.002") ∉ mainFiltered multipartFS :=
  nonfirst_part_never_standalone multipartFS (str "update.zip.002") (by decide) (by decide)

/-! ### C9: properties of the empty-directory cleanup -/

theorem rmdirTry_files (st : FS) (d : Str) : (rmdirTry st d).files = st.files := by
  unfold rmdirTry
  split <;> rfl

theorem rmdirTry_dirs_sub {st : FS} {d x : Str} (h : x ∈ (rmdirTry st d).dirs) :
    x ∈ st.dirs := by
  unfold rmdirTry at h
  split at h
  · exact (List.mem_filter.mp h).1
  · exact h

theorem rmdirTry_dirs_keep {st : FS} {d x : Str} (hx : x ∈ st.dirs) (hne : x ≠ d) :
    x ∈ (rmdirTry st d).dirs := by
  unfold rmdirTry
  split
  · exact List.mem_filter.mpr ⟨hx, by simp [hne]⟩
  · exact hx

theorem rmdirTry_or (st : FS) (d : Str) :
    rmdirTry st d = st ∨ (rmdirTry st d).dirs.length < st.dirs.length := by
  unfold rmdirTry
  split
  · by_cases hd : d ∈ st.dirs
    · right
      exact List.length_filter_lt_length_iff_exists.mpr ⟨d, hd, by simp⟩
    · left
      have : st.dirs.filter (fun x => decide (x ≠ d)) = st.dirs :=
        List.filter_eq_self.mpr (fun x hx => by
          simp only [decide_eq_true_eq]
          intro he
          exact hd (he ▸ hx))
      rw [this]
  · left
    rfl

theorem foldPass_files (L : List Str) : ∀ st : FS, (L.foldl rmdirTry st).files = st.files := by
  induction L with
  | nil => intro st; rfl
  | cons d L ih =>
    intro st
    simp only [List.foldl_cons]
    rw [ih (rmdirTry st d), rmdirTry_files]

theorem foldPass_dirs_sub (L : List Str) :
    ∀ (st : FS) (x : Str), x ∈ (L.foldl rmdirTry st).dirs → x ∈ st.dirs := by
  induction L with
  | nil => intro st x h; exact h
  | cons d L ih =>
    intro st x h
    exact rmdirTry_dirs_sub (ih (rmdirTry st d) x h)

theorem foldPass_dirs_keep (L : List Str) :
    ∀ (st : FS) (x : Str), x ∈ st.dirs → (∀ d ∈ L, x ≠ d) →
      x ∈ (L.foldl rmdirTry st).dirs := by
  induction L with
  | nil => intro st x h _; exact h
  | cons d L ih =>
    intro st x h hne
    simp only [List.foldl_cons]
    exact ih (rmdirTry st d) x (rmdirTry_dirs_keep h (hne d (by simp)))
      (fun d' hd' => hne d' (by simp [hd']))

theorem foldPass_len_le (L : List Str) :
    ∀ st : FS, (L.foldl rmdirTry st).dirs.length ≤ st.dirs.length := by
  induction L with
  | nil => intro st; exact Nat.le_refl _
  | cons d L ih =>
    intro st
    refine (ih (rmdirTry st d)).trans ?_
    rcases rmdirTry_or st d with he | hlt
    · rw [he]
    · exact Nat.le_of_lt hlt

theorem foldPass_or (L : List Str) :
    ∀ st : FS, L.foldl rmdirTry st = st ∨ (L.foldl rmdirTry st).dirs.length < st.dirs.length := by
  induction L with
  | nil => intro st; exact Or.inl rfl
  | cons d L ih =>
    intro st
    simp only [List.foldl_cons]
    rcases rmdirTry_or st d with he | hlt
    · rw [he]
      exact ih st
    · right
      exact Nat.lt_of_le_of_lt (foldPass_len_le L (rmdirTry st d)) hlt

theorem pass_files (gf : Str) (st : FS) : (emptyDirPass gf st).files = st.files :=
  foldPass_files _ st

theorem pass_dirs_sub {gf : Str} {st : FS} {x : Str} (h : x ∈ (emptyDirPass gf st).dirs) :
    x ∈ st.dirs :=
  foldPass_dirs_sub _ st x h

theorem pass_dirs_keep {gf : Str} {st : FS} {x : Str} (hx : x ∈ st.dirs)
    (hu : strictUnderB gf x = false) : x ∈ (emptyDirPass gf st).dirs := by
  unfold emptyDirPass
  refine foldPass_dirs_keep _ st x hx ?_
  intro d hd
  unfold sortStrRev at hd
  rw [List.mem_insertionSort] at hd
  have hdu := (List.mem_filter.mp hd).2
  intro he
  rw [← he, hu] at hdu
  exact absurd hdu (by simp)

theorem pass_or (gf : Str) (st : FS) :
    emptyDirPass gf st = st ∨ (emptyDirPass gf st).dirs.length < st.dirs.length :=
  foldPass_or _ st

theorem cleanup_files (gf : Str) (st : FS) :
    (cleanup_empty_dirs gf st).files = st.files := by
  by_cases h : (emptyDirPass gf st).dirs.length < st.dirs.length
  · rw [cleanup_empty_dirs, if_pos h]
    rw [cleanup_files gf (emptyDirPass gf st), pass_files]
  · rw [cleanup_empty_dirs, if_neg h, pass_files]
termination_by st.dirs.length
decreasing_by exact h

theorem cleanup_dirs_sub {gf : Str} (st : FS) {x : Str}
    (h : x ∈ (cleanup_empty_dirs gf st).dirs) : x ∈ st.dirs := by
  by_cases hc : (emptyDirPass gf st).dirs.length < st.dirs.length
  · rw [cleanup_empty_dirs, if_pos hc] at h
    exact pass_dirs_sub (cleanup_dirs_sub (emptyDirPass gf st) h)
  · rw [cleanup_empty_dirs, if_neg hc] at h
    exact pass_dirs_sub h
termination_by st.dirs.length
decreasing_by exact hc

theorem cleanup_dirs_keep {gf : Str} (st : FS) {x : Str} (hx : x ∈ st.dirs)
    (hu : strictUnderB gf x = false) : x ∈ (cleanup_empty_dirs gf st).dirs := by
  by_cases hc : (emptyDirPass gf st).dirs.length < st.dirs.length
  · rw [cleanup_empty_dirs, if_pos hc]
    exact cleanup_dirs_keep (emptyDirPass gf st) (pass_dirs_keep hx hu) hu
  · rw [cleanup_empty_dirs, if_neg hc]
    exact pass_dirs_keep hx hu
termination_by st.dirs.length
decreasing_by exact hc

theorem cleanup_fixed (gf : Str) (st : FS) :
    emptyDirPass gf (cleanup_empty_dirs gf st) = cleanup_empty_dirs gf st := by
  by_cases h : (emptyDirPass gf st).dirs.length < st.dirs.length
  · rw [cleanup_empty_dirs, if_pos h]
    exact cleanup_fixed gf (emptyDirPass gf st)
  · rw [cleanup_empty_dirs, if_neg h]
    rcases pass_or gf st with he | hlt
    · rw [he]
      exact he
    · exact absurd hlt h
termination_by st.dirs.length
decreasing_by exact h

theorem cleanup_of_fixed (gf : Str) (r : FS) (h : emptyDirPass gf r = r) :
    cleanup_empty_dirs gf r = r := by
  rw [cleanup_empty_dirs]
  simp [h]

theorem find?_congr {α : Type} {p q : α → Bool} :
    ∀ l : List α, (∀ a ∈ l, q a = p a) → l.find? q = l.find? p := by
  intro l
  induction l with
  | nil => intro _; rfl
  | cons a t ih =>
    intro h
    rw [List.find?_cons, List.find?_cons, h a (by simp)]
    cases hpa : p a
    · exact ih (fun b hb => h b (by simp [hb]))
    · rfl

theorem isFileFS_congr_files {st₁ st₂ : FS} (h : st₁.files = st₂.files) (p : Str) :
    isFileFS st₁ p = isFileFS st₂ p := by
  unfold isFileFS
  rw [h]

theorem isDir_cleanup_notUnder (gf g : Str) (st : FS) (hne : g ≠ ['.'])
    (hu : strictUnderB gf g = false) :
    isDirFS (cleanup_empty_dirs gf st) g = isDirFS st g := by
  unfold isDirFS
  have hg : decide (g = ['.']) = false := by simp [hne]
  rw [hg]
  simp only [Bool.false_or]
  by_cases h : st.dirs.any (fun d => decide (d = g)) = true
  · rw [h, List.any_eq_true]
    obtain ⟨d, hd, hdg⟩ := List.any_eq_true.mp h
    have hdg' : d = g := by simpa using hdg
    subst hdg'
    exact ⟨d, cleanup_dirs_keep st hd hu, by simp⟩
  · rw [Bool.not_eq_true] at h
    rw [h, Bool.eq_false_iff]
    intro hc
    obtain ⟨d, hd, hdg⟩ := List.any_eq_true.mp hc
    have hdg' : d = g := by simpa using hdg
    subst hdg'
    have hmem := cleanup_dirs_sub st hd
    have : st.dirs.any (fun x => decide (x = d)) = true :=
      List.any_eq_true.mpr ⟨d, hmem, by simp⟩
    rw [h] at this
    exact absurd this (by simp)

theorem detect_cleanup (st : FS) (gf : Str) (hgf : detect_game_folder st = some gf) :
    detect_game_folder (cleanup_empty_dirs gf st) = some gf := by
  have hmem : gf ∈ GAME_FOLDERS := List.mem_of_find?_eq_some hgf
  have hpair : ∀ a ∈ GAME_FOLDERS, ∀ b ∈ GAME_FOLDERS, strictUnderB a b = false := by decide
  have hdot : ∀ a ∈ GAME_FOLDERS, a ≠ ['.'] := by decide
  unfold detect_game_folder at hgf ⊢
  rw [find?_congr GAME_FOLDERS
    (fun g hg => isDir_cleanup_notUnder gf g st (hdot g hg) (hpair gf hmem g hg))]
  exact hgf

theorem firstparts_nil {st : FS}
    (h : ∀ e ∈ cwdEntryNames st, is_multipart_first e = false) :
    get_multipart_first_parts st = [] := by
  unfold get_multipart_first_parts sortStr
  have hnil : (cwdFileNames st).filter is_multipart_first = [] :=
    List.filter_eq_nil_iff.mpr (fun e he => by simp [h e (List.mem_append_left _ he)])
  rw [hnil]
  rfl

theorem maincands_nil {st : FS}
    (h : ∀ e ∈ cwdEntryNames st,
      (str ".zip").isSuffixOf (lowerStr e) = false ∧
      (str ".7z").isSuffixOf (lowerStr e) = false ∧
      (str ".rar").isSuffixOf (lowerStr e) = false) :
    mainCandidates st = [] := by
  have hnil : List.filter (fun e =>
      notHidden e &&
        ((str ".zip").isSuffixOf (lowerStr e) || (str ".7z").isSuffixOf (lowerStr e) ||
          (str ".rar").isSuffixOf (lowerStr e))) (cwdEntryNames st) = [] :=
    List.filter_eq_nil_iff.mpr (fun e he => by
      obtain ⟨h1, h2, h3⟩ := h e he
      simp [h1, h2, h3])
  unfold mainCandidates sortStr
  rw [hnil]
  rfl

theorem mainFiltered_nil {st : FS} (h : mainCandidates st = []) : mainFiltered st = [] := by
  unfold mainFiltered
  rw [h]
  rfl

theorem mainRun_cleanup_only (E : Ext) (st : FS) (gf : Str)
    (hgf : detect_game_folder st = some gf)
    (htools : isFileFS st (str "7z.exe") = true ∧ isFileFS st (str "hpatchz.exe") = true)
    (hnoarch : ∀ e ∈ cwdEntryNames st,
      (str ".zip").isSuffixOf (lowerStr e) = false ∧
      (str ".7z").isSuffixOf (lowerStr e) = false ∧
      (str ".rar").isSuffixOf (lowerStr e) = false ∧
      is_multipart_first e = false) :
    mainRun E st = .finished (cleanup_empty_dirs gf st) false := by
  have hfp : get_multipart_first_parts st = [] :=
    firstparts_nil (fun e he => (hnoarch e he).2.2.2)
  have hext : extract_all_multipart_and_process E gf st = (st, false) := by
    unfold extract_all_multipart_and_process
    rw [hfp]
    rfl
  have hcand : mainCandidates st = [] :=
    maincands_nil (fun e he => ⟨(hnoarch e he).1, (hnoarch e he).2.1, (hnoarch e he).2.2.1⟩)
  have hfil : mainFiltered st = [] := mainFiltered_nil hcand
  have hcheck : ¬ check_tools st = false := by
    simp [check_tools, existsFS, htools.1, htools.2]
  simp only [mainRun, hgf]
  rw [if_neg hcheck]
  simp only [hext]
  rw [hfil]
  simp [singlesLoop]

theorem cleanup_cwd_sub {gf : Str} {st : FS} {e : Str}
    (h : e ∈ cwdEntryNames (cleanup_empty_dirs gf st)) : e ∈ cwdEntryNames st := by
  unfold cwdEntryNames cwdFileNames at h ⊢
  rw [cleanup_files] at h
  rcases List.mem_append.mp h with h1 | h2
  · exact List.mem_append_left _ h1
  · refine List.mem_append_right _ ?_
    have hm := List.mem_filter.mp h2
    exact List.mem_filter.mpr ⟨cleanup_dirs_sub st hm.1, hm.2⟩

/-- C9: on an already-patched tree — game folder detected, both tool
binaries present, no manifests, no archive or part files — `main` performs
only the empty-directory cleanup, reports no patch, raises no error and
reaches the finished message; a second run on the result does exactly the
same and leaves the state unchanged (the cleanup is a fixed point). -/
theorem mainRun_idempotent_cleanup (E : Ext) (st : FS) (gf : Str)
    (hgf : detect_game_folder st = some gf)
    (htools : isFileFS st (str "7z.exe") = true ∧ isFileFS st (str "hpatchz.exe") = true)
    (_hnoman : isFileFS st (str "deletefiles.txt") = false ∧
      isFileFS st (str "hdifffiles.txt") = false)
    (hnoarch : ∀ e ∈ cwdEntryNames st,
      (str ".zip").isSuffixOf (lowerStr e) = false ∧
      (str ".7z").isSuffixOf (lowerStr e) = false ∧
      (str ".rar").isSuffixOf (lowerStr e) = false ∧
      is_multipart_first e = false) :
    mainRun E st = .finished (cleanup_empty_dirs gf st) false ∧
    mainRun E (cleanup_empty_dirs gf st) = .finished (cleanup_empty_dirs gf st) false := by
  refine ⟨mainRun_cleanup_only E st gf hgf htools hnoarch, ?_⟩
  have hgf' : detect_game_folder (cleanup_empty_dirs gf st) = some gf := detect_cleanup st gf hgf
  have hfiles := cleanup_files gf st
  have htools' : isFileFS (cleanup_empty_dirs gf st) (str "7z.exe") = true ∧
      isFileFS (cleanup_empty_dirs gf st) (str "hpatchz.exe") = true := by
    rw [isFileFS_congr_files hfiles, isFileFS_congr_files hfiles]
    exact htools
  have hnoarch' : ∀ e ∈ cwdEntryNames (cleanup_empty_dirs gf st),
      (str ".zip").isSuffixOf (lowerStr e) = false ∧
      (str ".7z").isSuffixOf (lowerStr e) = false ∧
      (str ".rar").isSuffixOf (lowerStr e) = false ∧
      is_multipart_first e = false :=
    fun e he => hnoarch e (cleanup_cwd_sub he)
  have h2 := mainRun_cleanup_only E (cleanup_empty_dirs gf st) gf hgf' htools' hnoarch'
  rw [cleanup_of_fixed gf _ (cleanup_fixed gf st)] at h2
  exact h2

/-- Witness for C9 on a minimal already-patched tree. -/
theorem mainRun_idempotent_cleanup_w :
    mainRun extIdNone idleFS =
      .finished (cleanup_empty_dirs (str "GenshinImpact_Data") idleFS) false ∧
    mainRun extIdNone (cleanup_empty_dirs (str "GenshinImpact_Data") idleFS) =
      .finished (cleanup_empty_dirs (str "GenshinImpact_Data") idleFS) false :=
  mainRun_idempotent_cleanup extIdNone idleFS (str "GenshinImpact_Data") (by decide)
    ⟨by decide, by decide⟩ ⟨by decide, by decide⟩ (by decide)

end HdiffPatcher
